import Mathlib

/-!
# log-pilot: label extraction, mount resolution, rescan and reload

A shallow embedding of `pilot/pilot.go` and `pilot/fluentd_piloter.go`.

Conventions of the embedding

* A Go `string` is a list of characters (`Str`); the strings handled here are
  UTF-8 text, so a byte-oriented scan for `/`, `.`, `,` or `=` and a scan over
  characters agree.
* The Go standard-library functions the code calls (`strings.Split`,
  `strings.TrimSpace`, `filepath.Clean`, `filepath.Dir`, `filepath.Base`,
  `filepath.Join`, ...) are written out after their Unix behaviour and keep
  their Go names.
* A Go `map[string]T` is an association list read by first match; writing a
  key puts the new binding in front, so the latest write is the one read.
* A loop that may run forever is run with a step budget: `Exec.outOfFuel`
  is the only result of a run that did not finish within the budget.
-/

namespace LogPilot

/-- A Go string. -/
abbrev Str := List Char

/-! ## Go `strings` -/

/-- Go `strings.Split(s, sep)` for a one-character separator: the pieces of `s`
between the occurrences of `sep`; never empty, `[""]` for the empty string. -/
def Split : Str → Char → List Str
  | [], _ => [[]]
  | c :: cs, sep =>
    if c = sep then [] :: Split cs sep
    else
      match Split cs sep with
      | [] => [[c]]
      | w :: ws => (c :: w) :: ws

/-- Go `strings.Count(s, sep)` for a one-character separator. -/
def Count (s : Str) (sep : Char) : Nat := s.count sep

/-- Go `strings.HasPrefix(s, p)`. -/
def HasPrefix (s p : Str) : Bool := p.isPrefixOf s

/-- Go `strings.TrimPrefix(s, p)`. -/
def TrimPrefix (s p : Str) : Str := if HasPrefix s p then s.drop p.length else s

/-- Go `unicode.IsSpace`: the Latin-1 white space and the Unicode
`White_Space` code points above it. -/
def isSpace (c : Char) : Bool :=
  let n := c.toNat
  (9 ≤ n && n ≤ 13) || n == 32 || n == 0x85 || n == 0xA0 || n == 0x1680 ||
  (0x2000 ≤ n && n ≤ 0x200a) || n == 0x2028 || n == 0x2029 || n == 0x202f ||
  n == 0x205f || n == 0x3000

/-- Go `strings.TrimSpace`: drop leading and trailing white space. -/
def TrimSpace (s : Str) : Str :=
  ((s.dropWhile isSpace).reverse.dropWhile isSpace).reverse

/-- Go `strings.Join(elems, "/")`. -/
def joinSlash (elems : List Str) : Str := List.intercalate ['/'] elems

/-! ## Go `path/filepath` (Unix) -/

/-- The non-empty elements of a path, in order. -/
def pathElems (p : Str) : List Str := (Split p '/').filter (fun e => !e.isEmpty)

/-- One element consumed by `filepath.Clean`. `st` holds the elements written
so far, last one first. A `.` is dropped; a `..` removes the last real
element, is dropped at the root, and is kept at the front of a relative path;
any other element is appended. -/
def cleanStep (rooted : Bool) (st : List Str) (e : Str) : List Str :=
  if e = ['.'] then st
  else if e = ['.', '.'] then
    match st with
    | [] => if rooted then [] else [e]
    | t :: rest => if t = ['.', '.'] then (if rooted then st else e :: st) else rest
  else e :: st

/-- The elements `filepath.Clean` leaves, last one first. -/
def cleanElems (rooted : Bool) (es : List Str) : List Str :=
  es.foldl (cleanStep rooted) []

/-- Go `filepath.Clean`: the shortest path equivalent to `p` by purely lexical
processing. The empty path becomes `.`; a rooted path stays rooted. -/
def Clean (p : Str) : Str :=
  match p with
  | [] => ['.']
  | c :: _ =>
    if c = '/' then '/' :: joinSlash (cleanElems true (pathElems p)).reverse
    else
      match (cleanElems false (pathElems p)).reverse with
      | [] => ['.']
      | es => joinSlash es

/-- The part of `p` up to and including its last separator. -/
def dirPart (p : Str) : Str := (p.reverse.dropWhile (fun c => c != '/')).reverse

/-- Go `filepath.Dir`: all but the last element of `p`, cleaned. -/
def Dir (p : Str) : Str := Clean (dirPart p)

/-- Go `filepath.Base`: the last element of `p`, after trailing separators are
removed; `.` for the empty path and `/` for a path of separators only. -/
def Base (p : Str) : Str :=
  if p = [] then ['.']
  else
    let q := (p.reverse.dropWhile (fun c => c == '/')).reverse
    let b := (q.reverse.takeWhile (fun c => c != '/')).reverse
    if b = [] then ['/'] else b

/-- Go `filepath.Join`: the elements from the first non-empty one on, joined
by separators and cleaned; the empty string when all are empty. -/
def Join : List Str → Str
  | [] => []
  | e :: es => if e = [] then Join es else Clean (joinSlash (e :: es))

/-- Go `filepath.IsAbs` on Unix. -/
def IsAbs (p : Str) : Bool := HasPrefix p ['/']

/-! ## Data model (`pilot.go`) -/

/-- Go maps with string keys: an association list read by first match. -/
abbrev GoMap (β : Type) := List (Str × β)

/-- Go `v, ok := m[k]`. -/
def GoMap.get? {β : Type} : GoMap β → Str → Option β
  | [], _ => none
  | (k, v) :: rest, key => if key = k then some v else GoMap.get? rest key

/-- Go `m[k] = v`: the new binding shadows any earlier one. -/
def GoMap.set {β : Type} (m : GoMap β) (k : Str) (v : β) : GoMap β := (k, v) :: m

/-- Go `m[k]` on a `map[string]string`: the empty string when `k` is absent. -/
def GoMap.get (m : GoMap Str) (k : Str) : Str := (GoMap.get? m k).getD []

/-- The keys a `range` over the map visits: each key once. The order is the
order of the representation; Go leaves it unspecified. -/
def GoMap.keys {β : Type} (m : GoMap β) : List Str := (m.map Prod.fst).dedup

/-- The constant `LABEL_SERVICE_LOGS`. -/
def LABEL_SERVICE_LOGS : Str := "aliyun.logs.".toList

/-- The constant `FLUENTD_CONF_HOME`. -/
def FLUENTD_CONF_HOME : Str := "/etc/fluentd".toList

/-- The constant `LABEL_PROJECT`. -/
def LABEL_PROJECT : Str := "com.docker.compose.project".toList

/-- The constant `LABEL_SERVICE`. -/
def LABEL_SERVICE : Str := "com.docker.compose.service".toList

/-- The fields of docker's `types.MountPoint` that the code reads. -/
structure MountPoint where
  Source : Str
  Destination : Str
  deriving DecidableEq, Repr

/-- The struct `Source`. -/
structure Source where
  Application : Str
  Service : Str
  Container : Str
  deriving DecidableEq, Repr

/-- The struct `LogConfig`. -/
structure LogConfig where
  Name : Str
  HostDir : Str
  ContainerDir : Str
  Format : Str
  File : Str
  Tags : GoMap Str
  deriving DecidableEq, Repr

/-- The errors built with `fmt.Errorf` in `pilot.go`, one constructor for each
format string, and the errors handed back by the collaborators. -/
inductive Err where
  /-- Text: `%s is not a valid k=v format`. -/
  | notKV (kv : Str)
  /-- Text: `label %s is empty or not exist.` -/
  | labelEmpty (key : Str)
  /-- Text: `parse tags in %s error: %v`. -/
  | tagsError (key : Str) (cause : Err)
  /-- Text: `%s must be absolute path, in label %s`. -/
  | notAbsolute (path key : Str)
  /-- Text: `%s must be a file path, not directory, in label %s`. -/
  | notFile (path key : Str)
  /-- Text: `%s is not mount on host, in label %s`. -/
  | notMounted (path key : Str)
  /-- Text: `fluentd have not started`. -/
  | notStarted
  /-- An error returned by the docker client, the template or the file system. -/
  | external (msg : Str)
  deriving DecidableEq, Repr

/-- The result of running code that may loop or index out of range. -/
inductive Exec (α : Type) where
  /-- The run finished and returned `a`. -/
  | val (a : α)
  /-- The run stopped with a Go run-time panic. -/
  | panic
  /-- The run did not finish within the step budget. -/
  | outOfFuel
  deriving DecidableEq, Repr

/-- The fields of `Pilot` that the modelled methods read. -/
structure Pilot where
  base : Str
  reloadable : Bool
  deriving DecidableEq, Repr

/-! ## Mount resolution and label extraction (`pilot.go`) -/

/-- The method `hostDirOf`, run for at most `fuel` iterations of its `for`
loop: look the path up among the mount destinations; on a miss replace it by
`filepath.Base(path)` and leave the loop when that is `/`. -/
def hostDirOf (fuel : Nat) (path : Str) (mounts : GoMap MountPoint) : Exec Str :=
  match fuel with
  | 0 => .outOfFuel
  | fuel + 1 =>
    match mounts.get? path with
    | some point => .val point.Source
    | none =>
      let path := Base path
      if path = ['/'] then .val [] else hostDirOf fuel path mounts

/-- The loop body of `parseTags` over the remaining `kv` items. -/
def parseTagsLoop : List Str → GoMap Str → Except Err (GoMap Str)
  | [], tagMap => .ok tagMap
  | kv :: rest, tagMap =>
    let arr := Split kv '='
    if arr.length ≠ 2 then .error (.notKV kv)
    else
      let key := TrimSpace (arr.getD 0 [])
      let value := TrimSpace (arr.getD 1 [])
      if key = [] ∨ value = [] then .error (.notKV kv)
      else parseTagsLoop rest (tagMap.set key value)

/-- The method `parseTags`. An error result carries no map (Go returns `nil`). -/
def parseTags (tags : Str) : Except Err (GoMap Str) :=
  if tags = [] then .ok []
  else parseTagsLoop (Split tags ',') []

/-- The method `parseLogConfig`; `key` is its parameter `prefix`, and `fuel`
bounds the loop of `hostDirOf`. -/
def parseLogConfig (p : Pilot) (fuel : Nat) (key : Str) (jsonLogPath : Str)
    (mounts : GoMap MountPoint) (labels : GoMap Str) : Exec (Except Err LogConfig) :=
  let path := labels.get key
  if path = [] then .val (.error (.labelEmpty key))
  else
    let format := labels.get (key ++ ".format".toList)
    let format := if format = [] then "none".toList else format
    let tags := labels.get (key ++ ".tags".toList)
    match parseTags tags with
    | .error err => .val (.error (.tagsError (key ++ ".tags".toList) err))
    | .ok tagMap =>
      if path = "stdout".toList then
        match (Split key '.').get? 2 with
        | none => .panic
        | some name =>
          .val (.ok
            { Name := name
              HostDir := Join [p.base, Dir jsonLogPath]
              ContainerDir := []
              Format := "json".toList
              File := Base jsonLogPath
              Tags := tagMap })
      else if !IsAbs path then .val (.error (.notAbsolute path key))
      else
        let containerDir := Dir path
        let file := Base path
        if file = [] then .val (.error (.notFile path key))
        else
          match hostDirOf fuel containerDir mounts with
          | .outOfFuel => .outOfFuel
          | .panic => .panic
          | .val hostDir =>
            if hostDir = [] then .val (.error (.notMounted path key))
            else
              match (Split key '.').get? 2 with
              | none => .panic
              | some name =>
                .val (.ok
                  { Name := name
                    ContainerDir := containerDir
                    Format := format
                    File := file
                    Tags := tagMap
                    HostDir := Join [p.base, hostDir] })

/-- The `range labels` loop of `getLogConfigs` over the keys still to visit. -/
def getLogConfigsLoop (p : Pilot) (fuel : Nat) (jsonLogPath : Str)
    (mountsMap : GoMap MountPoint) (labels : GoMap Str) :
    List Str → List LogConfig → Exec (List LogConfig)
  | [], ret => .val ret
  | k :: ks, ret =>
    if HasPrefix k LABEL_SERVICE_LOGS && Count k '.' == 2 then
      match parseLogConfig p fuel k jsonLogPath mountsMap labels with
      | .outOfFuel => .outOfFuel
      | .panic => .panic
      | .val (.error _) => getLogConfigsLoop p fuel jsonLogPath mountsMap labels ks ret
      | .val (.ok config) =>
        getLogConfigsLoop p fuel jsonLogPath mountsMap labels ks (ret ++ [config])
    else getLogConfigsLoop p fuel jsonLogPath mountsMap labels ks ret

/-- The map `mountsMap` that `getLogConfigs` builds: destination to mount
point, a later mount of the list overwriting an earlier one. -/
def mountsMapOf (mounts : List MountPoint) : GoMap MountPoint :=
  mounts.foldl (fun m mount => m.set mount.Destination mount) []

/-- The method `getLogConfigs`. -/
def getLogConfigs (p : Pilot) (fuel : Nat) (jsonLogPath : Str)
    (mounts : List MountPoint) (labels : GoMap Str) : Exec (List LogConfig) :=
  getLogConfigsLoop p fuel jsonLogPath (mountsMapOf mounts) labels labels.keys []

/-! ## Full rescan (`pilot.go`)

The docker client, the template and the file system are collaborators: what
they answer is a parameter (`Env`), and the calls that change something are
recorded in order (`Event`). Log output and the mutex are left out. -/

/-- The fields of docker's `types.ContainerJSON` that `newContainer` reads. -/
structure ContainerJSON where
  ID : Str
  Name : Str
  LogPath : Str
  Mounts : List MountPoint
  Labels : GoMap Str
  deriving DecidableEq, Repr

/-- The answers of the collaborators. -/
structure Env where
  /-- The container ids `ContainerList` reports, or its error. -/
  ContainerList : Except Err (List Str)
  /-- The answer of `ContainerInspect` for a container id. -/
  ContainerInspect : Str → Except Err ContainerJSON
  /-- The answer of `tpl.Execute` for the render context. -/
  Execute : Str → Source → List LogConfig → Except Err Str
  /-- The error of `ioutil.WriteFile` for a path and content, if any. -/
  WriteFile : Str → Str → Option Err
  /-- The error of `os.Open` for a directory, if any. -/
  Open : Str → Option Err
  /-- The answer of `Readdirnames` for a directory. -/
  Readdirnames : Str → Except Err (List Str)
  /-- The answer of `os.Stat` for a path: whether it is a regular file. -/
  Stat : Str → Except Err Bool
  /-- The error of `os.Remove` for a path, if any. -/
  Remove : Str → Option Err

/-- The calls that act on the outside world. -/
inductive Event where
  /-- A call of `ContainerInspect` for the id. -/
  | inspect (id : Str)
  /-- A successful `ioutil.WriteFile`. -/
  | write (path content : Str)
  /-- A successful `os.Remove`. -/
  | remove (path : Str)
  /-- A call of `ReloadFluentd`. -/
  | reload
  deriving DecidableEq, Repr

/-- The method `pathOf`. -/
def pathOf (container : Str) : Str :=
  FLUENTD_CONF_HOME ++ "/conf.d/".toList ++ container ++ ".conf".toList

/-- The method `tryReload`. -/
def tryReload (p : Pilot) (w : List Event) : List Event :=
  if p.reloadable then w ++ [.reload] else w

/-- The method `render`. -/
def render (env : Env) (containerId : Str) (source : Source) (configList : List LogConfig) :
    Except Err Str :=
  env.Execute containerId source configList

/-- The `range names` loop of `cleanConfigs`. -/
def cleanConfigsLoop (env : Env) (confDir : Str) : List Str → List Event → List Event × Option Err
  | [], w => (w, none)
  | name :: names, w =>
    let path := Join [confDir, name]
    match env.Stat (Join [confDir, name]) with
    | .error err => (w, some err)
    | .ok isRegular =>
      if isRegular then
        match env.Remove path with
        | some err => (w, some err)
        | none => cleanConfigsLoop env confDir names (w ++ [.remove path])
      else cleanConfigsLoop env confDir names w

/-- The method `cleanConfigs`. -/
def cleanConfigs (env : Env) (w : List Event) : List Event × Option Err :=
  let confDir := FLUENTD_CONF_HOME ++ "/conf.d".toList
  match env.Open confDir with
  | some err => (w, some err)
  | none =>
    match env.Readdirnames confDir with
    | .error err => (w, some err)
    | .ok names => cleanConfigsLoop env confDir names w

/-- The method `newContainer`. -/
def newContainer (env : Env) (p : Pilot) (fuel : Nat) (containerJSON : ContainerJSON)
    (w : List Event) : Exec (List Event × Option Err) :=
  let id := containerJSON.ID
  let jsonLogPath := containerJSON.LogPath
  let mounts := containerJSON.Mounts
  let labels := containerJSON.Labels
  let source : Source :=
    { Application := labels.get LABEL_PROJECT
      Service := labels.get LABEL_SERVICE
      Container := TrimPrefix containerJSON.Name ['/'] }
  match getLogConfigs p fuel jsonLogPath mounts labels with
  | .outOfFuel => .outOfFuel
  | .panic => .panic
  | .val logConfigs =>
    if logConfigs.length = 0 then .val (w, none)
    else
      match render env id source logConfigs with
      | .error err => .val (w, some err)
      | .ok fluentdConfig =>
        match env.WriteFile (pathOf id) fluentdConfig with
        | some err => .val (w, some err)
        | none => .val (tryReload p (w ++ [.write (pathOf id) fluentdConfig]), none)

/-- The `range containers` loop of `processAllContainers`. -/
def processAllContainersLoop (env : Env) (p : Pilot) (fuel : Nat) :
    List Str → List Event → Exec (List Event × Option Err)
  | [], w => .val (w, none)
  | c :: cs, w =>
    match env.ContainerInspect c with
    | .error err => .val (w ++ [.inspect c], some err)
    | .ok containerJSON =>
      match newContainer env p fuel containerJSON (w ++ [.inspect c]) with
      | .outOfFuel => .outOfFuel
      | .panic => .panic
      | .val (w1, some err) => .val (w1, some err)
      | .val (w1, none) => processAllContainersLoop env p fuel cs w1

/-- The method `processAllContainers`. -/
def processAllContainers (env : Env) (p : Pilot) (fuel : Nat) (w : List Event) :
    Exec (List Event × Option Err) :=
  match env.ContainerList with
  | .error err => .val (w, some err)
  | .ok containers =>
    match cleanConfigs env w with
    | (w1, some err) => .val (w1, some err)
    | (w1, none) => processAllContainersLoop env p fuel containers w1

/-! ## Reload of the supervised process (`fluentd_piloter.go`)

The goroutine started by `Reload` is awaited on the channel before `Reload`
returns, so its body runs as part of the call. What `/bin/sh` prints is a
parameter: a function of the calls made so far and of the command. -/

/-- The fields of `exec.Cmd` that `Reload` reads: `Process.Pid`. -/
structure Cmd where
  Pid : Int
  deriving DecidableEq, Repr

/-- The calls `Reload` makes. -/
inductive SupEvent where
  /-- A run of `/bin/sh -c command`. -/
  | shell (command : Str)
  /-- The call `fluentd.Process.Signal(syscall.SIGHUP)` on the process `pid`. -/
  | sighup (pid : Int)
  /-- The call `time.Sleep` for a number of seconds. -/
  | sleep (seconds : Nat)
  deriving DecidableEq, Repr

/-- Go `fmt.Sprintf("%d", n)`. -/
def formatInt (n : Int) : Str := (toString n).toList

/-- The function `shell`: run the command and return its trimmed output. -/
def shell (out : List SupEvent → Str → Str) (w : List SupEvent) (command : Str) :
    List SupEvent × Str :=
  (w ++ [.shell command], TrimSpace (out w command))

/-- The method `Reload`, given the package variable `fluentd`. -/
def Reload (fluentd : Option Cmd) (out : List SupEvent → Str → Str) (w : List SupEvent) :
    List SupEvent × Option Err :=
  match fluentd with
  | none => (w, some .notStarted)
  | some cmd =>
    let pid := cmd.Pid
    let command := "pgrep -P ".toList ++ formatInt pid
    let (w, childId) := shell out w command
    let w := w ++ [.sighup cmd.Pid]
    let w := w ++ [.sleep 5]
    let (w, afterChildId) := shell out w command
    if childId = afterChildId then
      let (w, _) := shell out w ("kill -9 ".toList ++ childId)
      (w, none)
    else (w, none)

/-! ## Definitions used in the statements -/

/-- The collaborators of the rescan example: two containers are listed, the
inspect of `c1` fails, `c2` has one valid `stdout` label, and nothing else
fails. -/
def exampleEnv : Env where
  ContainerList := .ok ["c1".toList, "c2".toList]
  ContainerInspect := fun id =>
    if id = "c1".toList then .error (.external "no such container".toList)
    else .ok
      { ID := id
        Name := "/web".toList
        LogPath := "/var/lib/docker/containers/c2/c2-json.log".toList
        Mounts := []
        Labels := [("aliyun.logs.out".toList, "stdout".toList)] }
  Execute := fun _ _ _ => .ok "conf".toList
  WriteFile := fun _ _ => none
  Open := fun _ => none
  Readdirnames := fun _ => .ok []
  Stat := fun _ => .ok true
  Remove := fun _ => none

/-- The trimmed part before the `=` of a tag item. -/
def pairKey (kv : Str) : Str := TrimSpace ((Split kv '=').getD 0 [])

/-- The trimmed part after the `=` of a tag item. -/
def pairValue (kv : Str) : Str := TrimSpace ((Split kv '=').getD 1 [])

/-- A tag item splits on `=` into exactly two parts, both non-empty after
trimming. -/
def validPair (kv : Str) : Prop :=
  (Split kv '=').length = 2 ∧ pairKey kv ≠ [] ∧ pairValue kv ≠ []

instance (kv : Str) : Decidable (validPair kv) := by
  unfold validPair
  infer_instance

/-- The item `kv` is the last one of `items` whose key is `k`, and its value is `v`. -/
def lastBinding (items : List Str) (k v : Str) : Prop :=
  ∃ pre kv post, items = pre ++ kv :: post ∧ pairKey kv = k ∧ pairValue kv = v ∧
    ∀ kv' ∈ post, pairKey kv' ≠ k

/-- The path has a `..` element. -/
def hasDotDot (p : Str) : Prop := ['.', '.'] ∈ pathElems p

instance (p : Str) : Decidable (hasDotDot p) := by
  unfold hasDotDot
  infer_instance

/-- The path `h` lies under the directory `base`: the elements of the cleaned
`base` are the first elements of `h`. -/
def pathUnder (base h : Str) : Prop := pathElems (Clean base) <+: pathElems h

instance (base h : Str) : Decidable (pathUnder base h) := by
  unfold pathUnder
  infer_instance

/-! ## General facts about the library functions -/

/-- The library functions on rows of Go's own test tables (`path_test.go`,
`strings_test.go`). -/
theorem library_examples :
    Clean "".toList = ".".toList ∧
    Clean "abc//def//ghi".toList = "abc/def/ghi".toList ∧
    Clean "/./abc/def".toList = "/abc/def".toList ∧
    Clean "abc/def/../../..".toList = "..".toList ∧
    Clean "/abc/def/../../..".toList = "/".toList ∧
    Clean "abc/def/../../../ghi/jkl/../../../mno".toList = "../../mno".toList ∧
    Clean "/../abc".toList = "/abc".toList ∧
    Clean "abc/../../././../def".toList = "../../def".toList ∧
    Base "".toList = ".".toList ∧
    Base "////".toList = "/".toList ∧
    Base "x/".toList = "x".toList ∧
    Base "abc/def".toList = "def".toList ∧
    Base "/var/lib/x/abc-json.log".toList = "abc-json.log".toList ∧
    Dir "".toList = ".".toList ∧
    Dir "////".toList = "/".toList ∧
    Dir "/foo".toList = "/".toList ∧
    Dir "x/".toList = "x".toList ∧
    Dir "abc".toList = ".".toList ∧
    Dir "a/b/c.x".toList = "a/b".toList ∧
    Dir "/var/lib/x/abc-json.log".toList = "/var/lib/x".toList ∧
    Join ["a".toList, "".toList] = "a".toList ∧
    Join ["".toList, "b".toList] = "b".toList ∧
    Join ["/".toList, "a".toList] = "/a".toList ∧
    Join ["a/".toList, "b".toList] = "a/b".toList ∧
    Join ["".toList, "".toList] = "".toList ∧
    Split "".toList ',' = ["".toList] ∧
    Split "a,b,c".toList ',' = ["a".toList, "b".toList, "c".toList] ∧
    Split ",a,".toList ',' = ["".toList, "a".toList, "".toList] ∧
    TrimSpace " \t\n a b \r\n".toList = "a b".toList := by
  decide

/-- `filepath.Base` never returns the empty string. -/
theorem Base_ne_nil (p : Str) : Base p ≠ [] := by
  unfold Base
  by_cases h : p = []
  · simp [h]
  · simp only [h, if_false]
    split <;> simp_all

/-- A string without the separator is a single piece. -/
theorem Split_of_not_mem (s : Str) (c : Char) (h : c ∉ s) : Split s c = [s] := by
  induction s with
  | nil => rfl
  | cons a t ih =>
    have ha : a ≠ c := fun e => h (by simp [e])
    have ht : c ∉ t := fun e => h (by simp [e])
    simp [Split, ha, ih ht]

/-- The pieces of a label key `aliyun.logs.<name>` with a dot-free name. -/
theorem Split_label_key (name : Str) (h : '.' ∉ name) :
    Split (LABEL_SERVICE_LOGS ++ name) '.' = ["aliyun".toList, "logs".toList, name] := by
  show Split ('a' :: 'l' :: 'i' :: 'y' :: 'u' :: 'n' :: '.' :: 'l' :: 'o' :: 'g' :: 's' :: '.'
    :: name) '.' = _
  simp [Split, Split_of_not_mem name '.' h]

/-- An absolute path is not empty and is not the word `stdout`. -/
theorem IsAbs_ne (path : Str) (h : IsAbs path = true) :
    path ≠ [] ∧ path ≠ "stdout".toList := by
  cases path with
  | nil => simp [IsAbs, HasPrefix] at h
  | cons c t =>
    simp [IsAbs, HasPrefix] at h
    subst h
    constructor
    · simp
    · intro e
      have := congrArg List.head? e
      simp at this

/-! ## Mount resolution: the loop of `hostDirOf` -/

/-- A path that is no mount destination, is its own `filepath.Base` and is not
`/` keeps the loop of `hostDirOf` running: no budget is enough. -/
theorem hostDirOf_stuck (mounts : GoMap MountPoint) (b : Str)
    (hmiss : mounts.get? b = none) (hbase : Base b = b) (hroot : b ≠ ['/']) :
    ∀ fuel, hostDirOf fuel b mounts = Exec.outOfFuel := by
  intro fuel
  induction fuel with
  | zero => rfl
  | succ n ih => simp [hostDirOf, hmiss, hbase, hroot, ih]

/-- A path that is no mount destination, and whose last element is neither
one nor `/`, keeps `hostDirOf` running for ever. -/
theorem hostDirOf_diverges (mounts : GoMap MountPoint) (d : Str)
    (hd : mounts.get? d = none) (hb : mounts.get? (Base d) = none)
    (hbb : Base (Base d) = Base d) (hroot : Base d ≠ ['/']) :
    ∀ fuel, hostDirOf fuel d mounts = Exec.outOfFuel := by
  intro fuel
  cases fuel with
  | zero => rfl
  | succ n =>
    simp only [hostDirOf, hd, hroot, if_false]
    exact hostDirOf_stuck mounts (Base d) hb hbb hroot n

/-- A non-empty string without separator is its own `filepath.Base`. -/
theorem Base_of_no_sep (b : Str) (hne : b ≠ []) (hs : '/' ∉ b) : Base b = b := by
  have h1 : b.reverse.dropWhile (fun c => c == '/') = b.reverse := by
    cases hb : b.reverse with
    | nil => rfl
    | cons x t =>
      have hx : x ∈ b := by
        rw [← List.mem_reverse, hb]
        simp
      have : x ≠ '/' := fun e => hs (e ▸ hx)
      simp [List.dropWhile_cons, this]
  have h2 : b.reverse.takeWhile (fun c => c != '/') = b.reverse := by
    rw [List.takeWhile_eq_self_iff]
    intro x hx
    have : x ≠ '/' := fun e => hs (e ▸ (List.mem_reverse.mp hx))
    simp [this]
  unfold Base
  simp only [hne, if_false, h1, List.reverse_reverse, h2]

/-- The last element `filepath.Base` returns is its own `filepath.Base`. -/
theorem Base_Base (p : Str) : Base (Base p) = Base p := by
  by_cases hp : p = []
  · subst hp
    decide
  · by_cases hb : (((p.reverse.dropWhile (fun c => c == '/')).reverse).reverse.takeWhile
        (fun c => c != '/')).reverse = []
    · have e : Base p = ['/'] := by
        unfold Base
        simp only [hp, if_false, hb, if_true]
      rw [e]
      decide
    · have e : Base p = (((p.reverse.dropWhile (fun c => c == '/')).reverse).reverse.takeWhile
          (fun c => c != '/')).reverse := by
        unfold Base
        simp only [hp, if_false, hb]
      rw [e]
      apply Base_of_no_sep _ hb
      intro hm
      rw [List.mem_reverse] at hm
      have := List.mem_takeWhile_imp hm
      simp at this

/-- What `hostDirOf` does on every input: a mounted path gives its source; a
path of separators only gives the empty string; a path whose last element is
a mount destination gives the source of that; on every other path the loop
never ends. -/
theorem hostDirOf_behaviour (mounts : GoMap MountPoint) (d : Str) :
    (∀ point, mounts.get? d = some point →
      ∀ fuel, hostDirOf (fuel + 1) d mounts = .val point.Source) ∧
    (mounts.get? d = none → Base d = ['/'] →
      ∀ fuel, hostDirOf (fuel + 1) d mounts = .val []) ∧
    (∀ point, mounts.get? d = none → Base d ≠ ['/'] → mounts.get? (Base d) = some point →
      ∀ fuel, hostDirOf (fuel + 2) d mounts = .val point.Source) ∧
    (mounts.get? d = none → Base d ≠ ['/'] → mounts.get? (Base d) = none →
      ∀ fuel, hostDirOf fuel d mounts = .outOfFuel) := by
  refine ⟨?_, ?_, ?_, ?_⟩
  · intro point h fuel
    simp [hostDirOf, h]
  · intro h hb fuel
    simp [hostDirOf, h, hb]
  · intro point h hb hp fuel
    simp [hostDirOf, h, hb, hp]
  · intro h hb hn
    exact hostDirOf_diverges mounts d h hn (Base_Base d) hb

/-- When the loop of `hostDirOf` does not finish, `parseLogConfig` does not. -/
theorem parseLogConfig_outOfFuel (p : Pilot) (fuel : Nat) (key path jsonLogPath : Str)
    (mounts : GoMap MountPoint) (labels : GoMap Str) (tagMap : GoMap Str)
    (hval : labels.get key = path) (habs : IsAbs path = true)
    (htags : parseTags (labels.get (key ++ ".tags".toList)) = .ok tagMap)
    (hloop : hostDirOf fuel (Dir path) mounts = .outOfFuel) :
    parseLogConfig p fuel key jsonLogPath mounts labels = .outOfFuel := by
  obtain ⟨hne, hstd⟩ := IsAbs_ne path habs
  simp only [parseLogConfig, hval, htags, hne, hstd, habs, Base_ne_nil, hloop, if_false,
    Bool.not_true, Bool.false_eq_true]

/-- Claim C1, evaluated on the code at the input of the specification:
`hostDirOf("/data/sub/dir", {"/data" -> "/host/data"})` should return
`/host/data`, the source of the nearest mounted ancestor. The code replaces the
path by `filepath.Base(path)`, here `dir`, which is its own base and never `/`:
for every number of loop iterations the call has not returned. -/
theorem hostDirOf_nested_never_returns :
    ∀ fuel, hostDirOf fuel "/data/sub/dir".toList
      [("/data".toList, ⟨"/host/data".toList, "/data".toList⟩)] = Exec.outOfFuel :=
  hostDirOf_diverges _ _ (by decide) (by decide) (by decide) (by decide)

/-- Claim C2, evaluated on the code at the input of the specification:
`hostDirOf("/any/path", {})` should stop at the root and return the empty
string. The path becomes `path` after one step and stays so: for every number
of loop iterations the call has not returned. -/
theorem hostDirOf_unmounted_never_returns :
    ∀ fuel, hostDirOf fuel "/any/path".toList [] = Exec.outOfFuel :=
  hostDirOf_diverges _ _ (by decide) (by decide) (by decide) (by decide)

/-! ## `parseLogConfig` -/

/-- Claim C3, counterexample: the label `aliyun.logs.access` holds the absolute
file path `/var/log/app/access.log`, its tags parse, and its directory
`/var/log/app` is exactly a mount destination, but the host source of that
mount is the empty string. `parseLogConfig` then returns the error "is not
mount on host" and no `LogConfig`. -/
theorem parseLogConfig_empty_source_rejected :
    '.' ∉ "access".toList ∧
    IsAbs "/var/log/app/access.log".toList = true ∧
    Base "/var/log/app/access.log".toList = "access.log".toList ∧
    GoMap.get? [("/var/log/app".toList, (⟨[], "/var/log/app".toList⟩ : MountPoint))]
      (Dir "/var/log/app/access.log".toList) = some ⟨[], "/var/log/app".toList⟩ ∧
    parseTags (GoMap.get [("aliyun.logs.access".toList, "/var/log/app/access.log".toList)]
      ("aliyun.logs.access".toList ++ ".tags".toList)) = .ok [] ∧
    ∀ fuel, parseLogConfig ⟨"/host".toList, false⟩ (fuel + 1) "aliyun.logs.access".toList []
      [("/var/log/app".toList, ⟨[], "/var/log/app".toList⟩)]
      [("aliyun.logs.access".toList, "/var/log/app/access.log".toList)]
      = .val (.error
          (.notMounted "/var/log/app/access.log".toList "aliyun.logs.access".toList)) :=
  ⟨by decide, by decide, by decide, by decide, rfl, fun _ => rfl⟩

/-- Claim C3, amended: for a key `aliyun.logs.<name>` with a dot-free name whose
value is an absolute path, whose `.tags` value parses, and whose directory is
exactly a mount destination with a non-empty host source, `parseLogConfig`
returns without error, after one loop iteration of `hostDirOf`, the `LogConfig`
with `Name` the name, `ContainerDir` the directory of the path, `File` its last
element, `Format` the value of `<key>.format` or `none` when that is absent or
empty, `Tags` the parsed tags and `HostDir` the base joined with the source. -/
theorem parseLogConfig_mounted (p : Pilot) (fuel : Nat) (name path jsonLogPath : Str)
    (mounts : GoMap MountPoint) (labels : GoMap Str) (point : MountPoint) (tagMap : GoMap Str)
    (hname : '.' ∉ name)
    (hval : labels.get (LABEL_SERVICE_LOGS ++ name) = path)
    (habs : IsAbs path = true)
    (htags : parseTags (labels.get (LABEL_SERVICE_LOGS ++ name ++ ".tags".toList)) = .ok tagMap)
    (hmount : mounts.get? (Dir path) = some point)
    (hsrc : point.Source ≠ []) :
    parseLogConfig p (fuel + 1) (LABEL_SERVICE_LOGS ++ name) jsonLogPath mounts labels
      = .val (.ok
          { Name := name
            ContainerDir := Dir path
            File := Base path
            Format :=
              if labels.get (LABEL_SERVICE_LOGS ++ name ++ ".format".toList) = []
              then "none".toList
              else labels.get (LABEL_SERVICE_LOGS ++ name ++ ".format".toList)
            Tags := tagMap
            HostDir := Join [p.base, point.Source] }) := by
  obtain ⟨hne, hstd⟩ := IsAbs_ne path habs
  simp only [parseLogConfig, hval, htags, hne, hstd, habs, Base_ne_nil, hostDirOf, hmount, hsrc,
    Split_label_key name hname, if_false, Bool.not_true, Bool.false_eq_true]
  rfl

/-- Scenario A of the specification: label
`aliyun.logs.access=/var/log/app/access.log` with the mount
`/var/log/app -> /data/logs/app` and base `/host`. -/
theorem parseLogConfig_mounted_witness :
    parseLogConfig ⟨"/host".toList, false⟩ 1 (LABEL_SERVICE_LOGS ++ "access".toList) []
      [("/var/log/app".toList, ⟨"/data/logs/app".toList, "/var/log/app".toList⟩)]
      [("aliyun.logs.access".toList, "/var/log/app/access.log".toList)]
      = .val (.ok
          { Name := "access".toList
            ContainerDir := "/var/log/app".toList
            File := "access.log".toList
            Format := "none".toList
            Tags := []
            HostDir := "/host/data/logs/app".toList }) :=
  parseLogConfig_mounted ⟨"/host".toList, false⟩ 0 "access".toList
    "/var/log/app/access.log".toList []
    [("/var/log/app".toList, ⟨"/data/logs/app".toList, "/var/log/app".toList⟩)]
    [("aliyun.logs.access".toList, "/var/log/app/access.log".toList)]
    ⟨"/data/logs/app".toList, "/var/log/app".toList⟩ []
    (by decide) (by decide) (by decide) rfl (by decide) (by decide)

/-- Claim C4, evaluated on the code: the label value `/var/log/app/` is an
absolute directory-only path and should be rejected. `filepath.Base` strips the
trailing separator and returns `app`, never the empty string the code tests
for. With the mount `/var/log/app -> /data/logs/app` the entry is accepted with
`File = app`; with no mount the call does not return at all (the loop of
`hostDirOf`, the defect of claims C1 and C2). -/
theorem parseLogConfig_directory_path_accepted :
    (∀ fuel, parseLogConfig ⟨"/host".toList, false⟩ (fuel + 1) "aliyun.logs.app".toList []
        [("/var/log/app".toList, ⟨"/data/logs/app".toList, "/var/log/app".toList⟩)]
        [("aliyun.logs.app".toList, "/var/log/app/".toList)]
      = .val (.ok
          { Name := "app".toList
            HostDir := "/host/data/logs/app".toList
            ContainerDir := "/var/log/app".toList
            Format := "none".toList
            File := "app".toList
            Tags := [] })) ∧
    (∀ fuel, parseLogConfig ⟨"/host".toList, false⟩ fuel "aliyun.logs.app".toList []
        [] [("aliyun.logs.app".toList, "/var/log/app/".toList)] = .outOfFuel) := by
  refine ⟨fun fuel => rfl, fun fuel => ?_⟩
  exact parseLogConfig_outOfFuel _ fuel _ "/var/log/app/".toList _ _ _ [] (by decide) (by decide)
    rfl (hostDirOf_diverges [] _ (by decide) (by decide) (by decide) (by decide) fuel)

/-- Claim C6, counterexample: for the key `aliyun.logs.a.b`, that is the prefix
followed by the name `a.b`, with value `stdout`, `parseLogConfig` returns a
`LogConfig` whose `Name` is `a`, the third dot-separated piece of the key, and
not `a.b`. -/
theorem parseLogConfig_stdout_dotted_name :
    "aliyun.logs.a.b".toList = LABEL_SERVICE_LOGS ++ "a.b".toList ∧
    (∀ fuel, parseLogConfig ⟨"/host".toList, false⟩ fuel "aliyun.logs.a.b".toList
        "/var/lib/x/abc-json.log".toList [] [("aliyun.logs.a.b".toList, "stdout".toList)]
      = .val (.ok
          { Name := "a".toList
            HostDir := "/host/var/lib/x".toList
            ContainerDir := []
            Format := "json".toList
            File := "abc-json.log".toList
            Tags := [] })) ∧
    "a".toList ≠ "a.b".toList :=
  ⟨by decide, fun _ => rfl, by decide⟩

/-- Claim C6, amended: for a key `aliyun.logs.<name>` with a dot-free name whose
value is exactly `stdout` and whose `.tags` value parses, for every native log
path, mount mapping, `.format` value and loop budget, `parseLogConfig` returns
without error the `LogConfig` with `Format = json`, `File` the last element of
the native log path, `HostDir` the base joined with its directory,
`ContainerDir` empty and `Name` the name. -/
theorem parseLogConfig_stdout (p : Pilot) (fuel : Nat) (name jsonLogPath : Str)
    (mounts : GoMap MountPoint) (labels : GoMap Str) (tagMap : GoMap Str)
    (hname : '.' ∉ name)
    (hval : labels.get (LABEL_SERVICE_LOGS ++ name) = "stdout".toList)
    (htags : parseTags (labels.get (LABEL_SERVICE_LOGS ++ name ++ ".tags".toList)) = .ok tagMap) :
    parseLogConfig p fuel (LABEL_SERVICE_LOGS ++ name) jsonLogPath mounts labels
      = .val (.ok
          { Name := name
            HostDir := Join [p.base, Dir jsonLogPath]
            ContainerDir := []
            Format := "json".toList
            File := Base jsonLogPath
            Tags := tagMap }) := by
  have hne : "stdout".toList ≠ ([] : Str) := by decide
  simp only [parseLogConfig, hval, htags, hne, Split_label_key name hname, if_false, if_true]
  rfl

/-- The stdout case of the specification: native log path
`/var/lib/x/abc-json.log`, a `.format` label that is ignored, base `/host`. -/
theorem parseLogConfig_stdout_witness :
    Join ["/host".toList, "/var/lib/x".toList] = "/host/var/lib/x".toList ∧
    parseLogConfig ⟨"/host".toList, false⟩ 0 (LABEL_SERVICE_LOGS ++ "out".toList)
      "/var/lib/x/abc-json.log".toList []
      [("aliyun.logs.out".toList, "stdout".toList),
       ("aliyun.logs.out.format".toList, "nginx".toList)]
      = .val (.ok
          { Name := "out".toList
            HostDir := "/host/var/lib/x".toList
            ContainerDir := []
            Format := "json".toList
            File := "abc-json.log".toList
            Tags := [] }) :=
  ⟨by decide,
   parseLogConfig_stdout ⟨"/host".toList, false⟩ 0 "out".toList "/var/lib/x/abc-json.log".toList
    [] [("aliyun.logs.out".toList, "stdout".toList),
        ("aliyun.logs.out.format".toList, "nginx".toList)] []
    (by decide) (by decide) rfl⟩

/-! ## `getLogConfigs` -/

/-- When the run of `parseLogConfig` on one of the keys to visit does not
finish, and no key before it panics, the loop of `getLogConfigs` does not
finish. -/
theorem getLogConfigsLoop_outOfFuel (p : Pilot) (fuel : Nat) (jsonLogPath : Str)
    (mountsMap : GoMap MountPoint) (labels : GoMap Str) (ks : List Str) (ret : List LogConfig)
    (k : Str) (hk : k ∈ ks)
    (hsel : (HasPrefix k LABEL_SERVICE_LOGS && Count k '.' == 2) = true)
    (hloop : parseLogConfig p fuel k jsonLogPath mountsMap labels = .outOfFuel)
    (hpanic : ∀ k1 ∈ ks, parseLogConfig p fuel k1 jsonLogPath mountsMap labels ≠ .panic) :
    getLogConfigsLoop p fuel jsonLogPath mountsMap labels ks ret = .outOfFuel := by
  induction ks generalizing ret with
  | nil => simp at hk
  | cons k0 rest ih =>
    have hrest : ∀ k1 ∈ rest, parseLogConfig p fuel k1 jsonLogPath mountsMap labels ≠ .panic :=
      fun k1 h1 => hpanic k1 (by simp [h1])
    simp only [getLogConfigsLoop]
    by_cases h0 : k0 = k
    · subst h0
      simp [hsel, hloop]
    · have hmem : k ∈ rest := by
        simp only [List.mem_cons] at hk
        rcases hk with hk | hk
        · exact absurd hk.symm h0
        · exact hk
      split
      · split
        · rfl
        · rename_i hp
          exact absurd hp (hpanic k0 (by simp))
        · exact ih _ hmem hrest
        · exact ih _ hmem hrest
      · exact ih _ hmem hrest

/-- Claim C8, evaluated on the code: the labels `aliyun.logs.a=stdout` and
`aliyun.logs.b=/x/y.log` of a container without mounts should give the one
`LogConfig` of `a`, the entry `b` being skipped as an unresolved mount. The
loop of `hostDirOf` on `/x` does not end (the defect of claims C1 and C2), so
for every loop budget `getLogConfigs` has not returned, in whichever of the
two orders the keys are visited: the invalid entry takes the valid one with
it. -/
theorem getLogConfigs_hangs :
    (∀ fuel, getLogConfigs ⟨"/host".toList, false⟩ fuel "/var/lib/x/abc-json.log".toList []
      [("aliyun.logs.a".toList, "stdout".toList), ("aliyun.logs.b".toList, "/x/y.log".toList)]
      = .outOfFuel) ∧
    (∀ fuel, getLogConfigs ⟨"/host".toList, false⟩ fuel "/var/lib/x/abc-json.log".toList []
      [("aliyun.logs.b".toList, "/x/y.log".toList), ("aliyun.logs.a".toList, "stdout".toList)]
      = .outOfFuel) := by
  constructor
  · intro fuel
    have hb : parseLogConfig ⟨"/host".toList, false⟩ fuel "aliyun.logs.b".toList
        "/var/lib/x/abc-json.log".toList []
        [("aliyun.logs.a".toList, "stdout".toList), ("aliyun.logs.b".toList, "/x/y.log".toList)]
        = .outOfFuel :=
      parseLogConfig_outOfFuel _ fuel _ "/x/y.log".toList _ _ _ [] (by decide) (by decide) rfl
        (hostDirOf_diverges [] _ (by decide) (by decide) (by decide) (by decide) fuel)
    refine getLogConfigsLoop_outOfFuel _ fuel _ _ _ _ [] "aliyun.logs.b".toList (by decide)
      (by decide) hb ?_
    intro k1 h1
    have h2 : k1 = "aliyun.logs.a".toList ∨ k1 = "aliyun.logs.b".toList := by
      have hk : GoMap.keys [("aliyun.logs.a".toList, "stdout".toList),
          ("aliyun.logs.b".toList, "/x/y.log".toList)]
          = ["aliyun.logs.a".toList, "aliyun.logs.b".toList] := by decide
      rw [hk] at h1
      simpa using h1
    rcases h2 with rfl | rfl
    · intro hp
      cases hp
    · intro hp
      have hb1 := hb
      rw [show ([] : GoMap MountPoint) = mountsMapOf [] from rfl] at hb1
      rw [hb1] at hp
      cases hp
  · intro fuel
    have hb : parseLogConfig ⟨"/host".toList, false⟩ fuel "aliyun.logs.b".toList
        "/var/lib/x/abc-json.log".toList []
        [("aliyun.logs.b".toList, "/x/y.log".toList), ("aliyun.logs.a".toList, "stdout".toList)]
        = .outOfFuel :=
      parseLogConfig_outOfFuel _ fuel _ "/x/y.log".toList _ _ _ [] (by decide) (by decide) rfl
        (hostDirOf_diverges [] _ (by decide) (by decide) (by decide) (by decide) fuel)
    refine getLogConfigsLoop_outOfFuel _ fuel _ _ _ _ [] "aliyun.logs.b".toList (by decide)
      (by decide) hb ?_
    intro k1 h1
    have h2 : k1 = "aliyun.logs.b".toList ∨ k1 = "aliyun.logs.a".toList := by
      have hk : GoMap.keys [("aliyun.logs.b".toList, "/x/y.log".toList),
          ("aliyun.logs.a".toList, "stdout".toList)]
          = ["aliyun.logs.b".toList, "aliyun.logs.a".toList] := by decide
      rw [hk] at h1
      simpa using h1
    rcases h2 with rfl | rfl
    · intro hp
      have hb1 := hb
      rw [show ([] : GoMap MountPoint) = mountsMapOf [] from rfl] at hb1
      rw [hb1] at hp
      cases hp
    · intro hp
      cases hp

/-! ## `parseTags` -/

/-- Reading a key from two maps laid one before the other. -/
theorem GoMap_get?_append {β : Type} (a b : GoMap β) (k : Str) :
    GoMap.get? (a ++ b) k = (GoMap.get? a k).orElse (fun _ => GoMap.get? b k) := by
  induction a with
  | nil => simp [GoMap.get?]
  | cons x t ih =>
    obtain ⟨k1, v1⟩ := x
    simp only [List.cons_append, GoMap.get?]
    split
    · simp
    · exact ih

/-- A key is absent exactly when no binding carries it. -/
theorem GoMap_get?_eq_none_iff {β : Type} (m : GoMap β) (k : Str) :
    GoMap.get? m k = none ↔ ∀ x ∈ m, x.1 ≠ k := by
  induction m with
  | nil => simp [GoMap.get?]
  | cons x t ih =>
    obtain ⟨k1, v1⟩ := x
    simp only [GoMap.get?, List.mem_cons, forall_eq_or_imp]
    by_cases h : k = k1
    · subst h
      simp only [if_true]
      constructor
      · intro hh
        cases hh
      · intro hh
        exact absurd rfl hh.1
    · simp only [h, if_false]
      rw [ih]
      constructor
      · intro hh
        exact ⟨fun e => h e.symm, hh⟩
      · intro hh
        exact hh.2

/-- After the bindings `f a` have been written in the order of `items`, a key
reads the value of the last item that carries it. -/
theorem GoMap_get?_reverse_map_iff {α β : Type} (f : α → Str × β) (items : List α)
    (k : Str) (v : β) :
    GoMap.get? (items.map f).reverse k = some v ↔
      ∃ pre a post, items = pre ++ a :: post ∧ (f a).1 = k ∧ (f a).2 = v ∧
        ∀ b ∈ post, (f b).1 ≠ k := by
  induction items with
  | nil => simp [GoMap.get?]
  | cons x t ih =>
    simp only [List.map_cons, List.reverse_cons, GoMap_get?_append]
    constructor
    · intro h
      cases h1 : GoMap.get? (t.map f).reverse k with
      | some v1 =>
        rw [h1] at h
        simp at h
        subst h
        obtain ⟨pre, a, post, e, hk, hv, hp⟩ := ih.mp h1
        exact ⟨x :: pre, a, post, by simp [e], hk, hv, hp⟩
      | none =>
        rw [h1] at h
        have hx : GoMap.get? [f x] k = some v := by simpa using h
        have hnone := (GoMap_get?_eq_none_iff _ k).mp h1
        cases hfx : f x with
        | mk k1 v1 =>
          rw [hfx] at hx
          simp only [GoMap.get?] at hx
          by_cases hk : k = k1
          · simp [hk] at hx
            refine ⟨[], x, t, rfl, by simp [hfx, hk], by simp [hfx, hx], ?_⟩
            intro b hb
            exact hnone (f b) (by simp; exact ⟨b, hb, rfl⟩)
          · simp [hk] at hx
    · rintro ⟨pre, a, post, e, hk, hv, hp⟩
      cases pre with
      | nil =>
        simp at e
        obtain ⟨rfl, rfl⟩ := e
        have hnone : GoMap.get? (t.map f).reverse k = none := by
          rw [GoMap_get?_eq_none_iff]
          intro y hy
          simp at hy
          obtain ⟨b, hb, rfl⟩ := hy
          exact hp b hb
        rw [hnone]
        cases hfx : f x with
        | mk k1 v1 =>
          rw [hfx] at hk hv
          simp at hk hv
          simp [GoMap.get?, hk, hv]
      | cons y pre1 =>
        simp at e
        obtain ⟨rfl, rfl⟩ := e
        have := ih.mpr ⟨pre1, a, post, rfl, hk, hv, hp⟩
        rw [this]
        simp

/-- When every remaining item is well formed the loop of `parseTags` binds each
of them in turn. -/
theorem parseTagsLoop_ok (items : List Str) (m0 : GoMap Str)
    (h : ∀ kv ∈ items, validPair kv) :
    parseTagsLoop items m0
      = .ok ((items.map (fun kv => (pairKey kv, pairValue kv))).reverse ++ m0) := by
  induction items generalizing m0 with
  | nil => simp [parseTagsLoop]
  | cons kv rest ih =>
    obtain ⟨h1, h2, h3⟩ := h kv (by simp)
    have hrest : ∀ kv' ∈ rest, validPair kv' := fun kv' hk => h kv' (by simp [hk])
    have h2' : TrimSpace ((Split kv '=').getD 0 []) ≠ [] := h2
    have h3' : TrimSpace ((Split kv '=').getD 1 []) ≠ [] := h3
    simp only [parseTagsLoop, h1, h2', h3', ne_eq, not_true_eq_false, if_false, or_self]
    rw [ih _ hrest]
    simp [GoMap.set, pairKey, pairValue]

/-- An item that is not well formed makes the loop of `parseTags` return an error. -/
theorem parseTagsLoop_error (items : List Str) (m0 : GoMap Str)
    (h : ∃ kv ∈ items, ¬ validPair kv) :
    ∃ e, parseTagsLoop items m0 = .error e := by
  induction items generalizing m0 with
  | nil => simp at h
  | cons kv rest ih =>
    by_cases hv : validPair kv
    · obtain ⟨h1, h2, h3⟩ := hv
      have h2' : TrimSpace ((Split kv '=').getD 0 []) ≠ [] := h2
      have h3' : TrimSpace ((Split kv '=').getD 1 []) ≠ [] := h3
      simp only [parseTagsLoop, h1, h2', h3', ne_eq, not_true_eq_false, if_false, or_self]
      apply ih
      obtain ⟨kv', hmem, hbad⟩ := h
      simp at hmem
      rcases hmem with rfl | hmem
      · exact absurd ⟨h1, h2, h3⟩ hbad
      · exact ⟨kv', hmem, hbad⟩
    · simp only [parseTagsLoop]
      by_cases h1 : (Split kv '=').length = 2
      · have : TrimSpace ((Split kv '=').getD 0 []) = [] ∨ TrimSpace ((Split kv '=').getD 1 []) = [] := by
          by_contra hc
          push_neg at hc
          exact hv ⟨h1, hc.1, hc.2⟩
        simp only [h1, ne_eq, not_true_eq_false, if_false]
        rw [if_pos this]
        exact ⟨_, rfl⟩
      · simp only [h1, ne_eq, not_false_eq_true, if_true]
        exact ⟨_, rfl⟩

/-- Claim C5, amended: `parseTags` on the empty string returns the empty map
and no error. On a non-empty string `s`, split on `,`, it returns an error
exactly when some item does not split on `=` into exactly two parts that are
both non-empty after trimming; and when it returns a map, a key `k` is bound to
`v` exactly when the last item whose trimmed key is `k` has the trimmed value
`v`, so the map holds the trimmed keys of the items and no other key. -/
theorem parseTags_spec (s : Str) :
    parseTags [] = .ok [] ∧
    (s ≠ [] →
      ((∃ e, parseTags s = .error e) ↔ ∃ kv ∈ Split s ',', ¬ validPair kv) ∧
      ∀ m, parseTags s = .ok m →
        ∀ k v, m.get? k = some v ↔ lastBinding (Split s ',') k v) := by
  refine ⟨rfl, fun hs => ?_⟩
  simp only [parseTags, hs, if_false]
  by_cases hall : ∀ kv ∈ Split s ',', validPair kv
  · rw [parseTagsLoop_ok _ _ hall]
    constructor
    · constructor
      · rintro ⟨e, he⟩
        cases he
      · rintro ⟨kv, hmem, hbad⟩
        exact absurd (hall kv hmem) hbad
    · intro m hm k v
      cases hm
      rw [List.append_nil, GoMap_get?_reverse_map_iff]
      rfl
  · push_neg at hall
    obtain ⟨e, he⟩ := parseTagsLoop_error (Split s ',') [] hall
    rw [he]
    constructor
    · exact ⟨fun _ => hall, fun _ => ⟨e, rfl⟩⟩
    · intro m hm
      cases hm

/-- Claim C5, counterexample: in `a=1,a=2` the item `a=1` has the trimmed key
`a` and the trimmed value `1`, and `parseTags` succeeds, but the map binds `a`
to `2`: the second write of the key replaces the first. -/
theorem parseTags_duplicate_key :
    "a=1".toList ∈ Split "a=1,a=2".toList ',' ∧
    pairKey "a=1".toList = "a".toList ∧ pairValue "a=1".toList = "1".toList ∧
    parseTags "a=1,a=2".toList = .ok [("a".toList, "2".toList), ("a".toList, "1".toList)] ∧
    GoMap.get? [("a".toList, "2".toList), ("a".toList, "1".toList)] "a".toList
      = some "2".toList ∧
    "2".toList ≠ "1".toList :=
  ⟨by decide, by decide, by decide, rfl, by decide, by decide⟩

/-- The examples of the specification: `bad`, `a=` and `=b` give an error, and
`a=1,b=2` binds `a` to `1`. -/
theorem parseTags_spec_witness :
    (∃ e, parseTags "bad".toList = .error e) ∧
    (∃ e, parseTags "a=".toList = .error e) ∧
    (∃ e, parseTags "=b".toList = .error e) ∧
    GoMap.get? [("b".toList, "2".toList), ("a".toList, "1".toList)] "a".toList
      = some "1".toList :=
  ⟨((parseTags_spec "bad".toList).2 (by decide)).1.mpr ⟨"bad".toList, by decide, by decide⟩,
   ((parseTags_spec "a=".toList).2 (by decide)).1.mpr ⟨"a=".toList, by decide, by decide⟩,
   ((parseTags_spec "=b".toList).2 (by decide)).1.mpr ⟨"=b".toList, by decide, by decide⟩,
   (((parseTags_spec "a=1,b=2".toList).2 (by decide)).2
      [("b".toList, "2".toList), ("a".toList, "1".toList)] rfl "a".toList "1".toList).mpr
      ⟨[], "a=1".toList, ["b=2".toList], by decide, by decide, by decide, by decide⟩⟩

/-! ## The host directory lies under the base -/

/-- `strings.Split` never returns an empty list. -/
theorem Split_ne_nil (s : Str) (c : Char) : ∃ w ws, Split s c = w :: ws := by
  cases s with
  | nil => exact ⟨[], [], rfl⟩
  | cons a t =>
    simp only [Split]
    split
    · exact ⟨_, _, rfl⟩
    · split
      · exact ⟨_, _, rfl⟩
      · exact ⟨_, _, rfl⟩

/-- Splitting at a separator splits the two sides. -/
theorem Split_append_sep (a b : Str) (c : Char) :
    Split (a ++ c :: b) c = Split a c ++ Split b c := by
  induction a with
  | nil => simp [Split]
  | cons x t ih =>
    obtain ⟨w, ws, hw⟩ := Split_ne_nil t c
    simp only [List.cons_append, Split]
    have ih1 : Split (t.append (c :: b)) c = (w :: ws) ++ Split b c := by
      rw [← hw]
      exact ih
    rw [ih1, hw]
    split <;> simp

/-- No piece holds the separator. -/
theorem not_mem_of_mem_Split (s : Str) (c : Char) : ∀ e ∈ Split s c, c ∉ e := by
  induction s with
  | nil => simp [Split]
  | cons x t ih =>
    obtain ⟨w, ws, hw⟩ := Split_ne_nil t c
    simp only [Split, hw]
    rw [hw] at ih
    split
    · intro e he
      simp only [List.mem_cons] at he
      rcases he with rfl | he
      · simp
      · exact ih e (by simpa using he)
    · rename_i hx
      intro e he
      simp only [List.mem_cons] at he
      rcases he with rfl | he
      · have := ih w (by simp)
        simp only [List.mem_cons, not_or]
        exact ⟨fun e => hx e.symm, this⟩
      · exact ih e (by simp [he])

/-- Joining two or more elements puts a separator after the first. -/
theorem joinSlash_cons_cons (e e1 : Str) (rest : List Str) :
    joinSlash (e :: e1 :: rest) = e ++ '/' :: joinSlash (e1 :: rest) := by
  simp [joinSlash, List.intercalate, List.intersperse]

/-- The elements of two paths put together with a separator. -/
theorem pathElems_append_sep (a b : Str) :
    pathElems (a ++ '/' :: b) = pathElems a ++ pathElems b := by
  simp [pathElems, Split_append_sep]

/-- A leading separator adds no element. -/
theorem pathElems_sep_cons (s : Str) : pathElems ('/' :: s) = pathElems s := by
  simp [pathElems, Split]

/-- A non-empty string without separator is its own single element. -/
theorem pathElems_elem (e : Str) (hne : e ≠ []) (hs : '/' ∉ e) : pathElems e = [e] := by
  simp [pathElems, Split_of_not_mem e '/' hs, hne]

/-- Path elements are non-empty and hold no separator. -/
theorem mem_pathElems (p e : Str) (h : e ∈ pathElems p) : e ≠ [] ∧ '/' ∉ e := by
  simp only [pathElems, List.mem_filter] at h
  refine ⟨?_, not_mem_of_mem_Split p '/' e h.1⟩
  intro he
  simp [he] at h

/-- Joining elements by separators and taking the elements again gives them back. -/
theorem pathElems_joinSlash (es : List Str) (h : ∀ e ∈ es, e ≠ [] ∧ '/' ∉ e) :
    pathElems (joinSlash es) = es := by
  induction es with
  | nil => simp [joinSlash, pathElems, Split]
  | cons e rest ih =>
    have he := h e (by simp)
    have hrest : ∀ e' ∈ rest, e' ≠ [] ∧ '/' ∉ e' := fun e' h' => h e' (by simp [h'])
    cases rest with
    | nil =>
      have hj : joinSlash [e] = e := by simp [joinSlash, List.intercalate, List.intersperse]
      rw [hj]
      exact pathElems_elem e he.1 he.2
    | cons e1 r =>
      rw [joinSlash_cons_cons, pathElems_append_sep, ih hrest, pathElems_elem e he.1 he.2]
      rfl


/-- One step of `filepath.Clean` keeps elements or adds the one it reads. -/
theorem mem_cleanStep (rooted : Bool) (st : List Str) (x e : Str)
    (h : e ∈ cleanStep rooted st x) : e ∈ st ∨ e = x := by
  unfold cleanStep at h
  split at h
  · exact Or.inl h
  · split at h
    · split at h
      · split at h
        · simp at h
        · simp at h
          exact Or.inr h
      · split at h
        · split at h
          · exact Or.inl h
          · simp only [List.mem_cons] at h
            rcases h with h | h
            · exact Or.inr h
            · exact Or.inl (by simpa using h)
        · exact Or.inl (by simp [h])
    · simp only [List.mem_cons] at h
      rcases h with h | h
      · exact Or.inr h
      · exact Or.inl h

/-- The steps of `filepath.Clean` make up no element. -/
theorem mem_foldl_cleanStep (rooted : Bool) (xs : List Str) (st : List Str) (e : Str)
    (h : e ∈ xs.foldl (cleanStep rooted) st) : e ∈ st ∨ e ∈ xs := by
  induction xs generalizing st with
  | nil => exact Or.inl h
  | cons x t ih =>
    simp only [List.foldl_cons] at h
    rcases ih _ h with h1 | h1
    · rcases mem_cleanStep rooted st x e h1 with h2 | h2
      · exact Or.inl h2
      · exact Or.inr (by simp [h2])
    · exact Or.inr (by simp [h1])

/-- Elements other than `..` are only dropped (the `.` ones) or appended. -/
theorem foldl_cleanStep_of_no_dotdot (rooted : Bool) (xs : List Str) (st : List Str)
    (h : ['.', '.'] ∉ xs) :
    xs.foldl (cleanStep rooted) st = (xs.filter (fun e => e != ['.'])).reverse ++ st := by
  induction xs generalizing st with
  | nil => simp
  | cons x t ih =>
    have hx : x ≠ ['.', '.'] := fun e => h (by simp [e])
    have ht : ['.', '.'] ∉ t := fun e => h (by simp [e])
    simp only [List.foldl_cons]
    rw [ih _ ht]
    by_cases hd : x = ['.']
    · simp [cleanStep, hd]
    · simp [cleanStep, hd, hx, List.filter_cons]

/-- The elements of a cleaned rooted path are those `filepath.Clean` keeps. -/
theorem pathElems_Clean_rooted (b : Str) :
    Clean ('/' :: b) = '/' :: joinSlash (cleanElems true (pathElems ('/' :: b))).reverse ∧
    pathElems (Clean ('/' :: b)) = (cleanElems true (pathElems ('/' :: b))).reverse := by
  have hc : Clean ('/' :: b)
      = '/' :: joinSlash (cleanElems true (pathElems ('/' :: b))).reverse := by
    simp [Clean]
  refine ⟨hc, ?_⟩
  rw [hc, pathElems_sep_cons, pathElems_joinSlash]
  intro e he
  rw [List.mem_reverse] at he
  rcases mem_foldl_cleanStep true _ [] e he with h | h
  · simp at h
  · exact mem_pathElems _ e h

/-- Joining a path without `..` elements to an absolute base gives an absolute
path under the base. -/
theorem Join_under_base (base x : Str) (hbase : IsAbs base = true) :
    IsAbs (Join [base, x]) = true ∧ (¬ hasDotDot x → pathUnder base (Join [base, x])) := by
  cases base with
  | nil => simp [IsAbs, HasPrefix] at hbase
  | cons c b =>
    have hc : c = '/' := by
      have := hbase
      simp [IsAbs, HasPrefix] at this
      exact this.symm
    subst hc
    have hj : Join ['/' :: b, x] = Clean ('/' :: (b ++ '/' :: x)) := by
      simp [Join, joinSlash, List.intercalate, List.intersperse]
    obtain ⟨h1, h2⟩ := pathElems_Clean_rooted (b ++ '/' :: x)
    constructor
    · rw [hj, h1]
      simp [IsAbs, HasPrefix]
    · intro hx
      unfold pathUnder
      rw [hj, h2, (pathElems_Clean_rooted b).2]
      have e : pathElems ('/' :: (b ++ '/' :: x)) = pathElems ('/' :: b) ++ pathElems x := by
        rw [← List.cons_append, pathElems_append_sep]
      rw [e]
      unfold cleanElems
      rw [List.foldl_append, foldl_cleanStep_of_no_dotdot true _ _ hx]
      simp


/-- What `hostDirOf` returns is the empty string or the source of a mount. -/
theorem hostDirOf_val (fuel : Nat) (d : Str) (mounts : GoMap MountPoint) (h : Str)
    (hret : hostDirOf fuel d mounts = .val h) :
    h = [] ∨ ∃ d1 point, mounts.get? d1 = some point ∧ point.Source = h := by
  induction fuel generalizing d with
  | zero => simp [hostDirOf] at hret
  | succ n ih =>
    simp only [hostDirOf] at hret
    split at hret
    · rename_i point hp
      simp at hret
      exact Or.inr ⟨d, point, hp, hret⟩
    · split at hret
      · simp at hret
        exact Or.inl hret
      · exact ih _ hret

/-- The `HostDir` of a returned `LogConfig` is the base joined with one path:
for a `stdout` entry the directory of the native log path, for any other entry
the host directory that `hostDirOf` resolved for the directory of the label
value. -/
theorem parseLogConfig_hostDir (p : Pilot) (fuel : Nat) (key jsonLogPath : Str)
    (mounts : GoMap MountPoint) (labels : GoMap Str) (cfg : LogConfig)
    (hret : parseLogConfig p fuel key jsonLogPath mounts labels = .val (.ok cfg)) :
    (labels.get key = "stdout".toList ∧ cfg.HostDir = Join [p.base, Dir jsonLogPath]) ∨
    (labels.get key ≠ "stdout".toList ∧
      ∃ hostDir, hostDirOf fuel (Dir (labels.get key)) mounts = .val hostDir ∧
        hostDir ≠ [] ∧ cfg.HostDir = Join [p.base, hostDir]) := by
  unfold parseLogConfig at hret
  simp only at hret
  split at hret
  · simp at hret
  · split at hret
    · simp at hret
    · split at hret
      · rename_i hstd
        split at hret
        · simp at hret
        · simp only [Exec.val.injEq, Except.ok.injEq] at hret
          subst hret
          exact Or.inl ⟨hstd, rfl⟩
      · rename_i hstd
        split at hret
        · simp at hret
        · split at hret
          · simp at hret
          · split at hret
            · simp at hret
            · simp at hret
            · rename_i hostDir hh
              split at hret
              · simp at hret
              · rename_i hne
                split at hret
                · simp at hret
                · simp only [Exec.val.injEq, Except.ok.injEq] at hret
                  subst hret
                  exact Or.inr ⟨hstd, hostDir, hh, hne, rfl⟩

/-- On a rooted path `filepath.Clean` leaves no `..` element. -/
theorem not_dotdot_mem_foldl_cleanStep (xs : List Str) (st : List Str)
    (h : ['.', '.'] ∉ st) : ['.', '.'] ∉ xs.foldl (cleanStep true) st := by
  induction xs generalizing st with
  | nil => exact h
  | cons x t ih =>
    simp only [List.foldl_cons]
    apply ih
    unfold cleanStep
    split
    · exact h
    · split
      · split
        · simp
        · rename_i t1 rest
          split
          · simpa using h
          · intro hm
            exact h (by simp [hm])
      · rename_i hx
        intro hm
        simp only [List.mem_cons] at hm
        rcases hm with hm | hm
        · exact hx hm.symm
        · exact h hm

/-- The directory part of a rooted path is rooted. -/
theorem dirPart_rooted (t : Str) : ∃ q, dirPart ('/' :: t) = '/' :: q := by
  have key : ∀ l : Str, ∃ q, (l ++ ['/']).dropWhile (fun c => c != '/') = q ++ ['/'] := by
    intro l
    induction l with
    | nil => exact ⟨[], by simp⟩
    | cons a l1 ih =>
      by_cases ha : a = '/'
      · exact ⟨a :: l1, by simp [ha]⟩
      · obtain ⟨q, hq⟩ := ih
        exact ⟨q, by simp [List.dropWhile_cons, ha, hq]⟩
  obtain ⟨q, hq⟩ := key t.reverse
  refine ⟨q.reverse, ?_⟩
  unfold dirPart
  rw [List.reverse_cons, hq]
  simp

/-- The directory of an absolute path has no `..` element. -/
theorem Dir_not_hasDotDot_of_IsAbs (path : Str) (h : IsAbs path = true) :
    ¬ hasDotDot (Dir path) := by
  cases path with
  | nil => simp [IsAbs, HasPrefix] at h
  | cons c t =>
    have hc : c = '/' := by
      have := h
      simp [IsAbs, HasPrefix] at this
      exact this.symm
    subst hc
    obtain ⟨q, hq⟩ := dirPart_rooted t
    unfold hasDotDot Dir
    rw [hq, (pathElems_Clean_rooted q).2, List.mem_reverse]
    exact not_dotdot_mem_foldl_cleanStep _ [] (by simp)

/-- Claim C7, amended: for an absolute base directory, every `LogConfig` that
`parseLogConfig` returns, in the stdout branch and in the mounted-path branch,
has an absolute `HostDir`. That `HostDir` is the base joined with one path `x`:
for a `stdout` entry the directory of the native log path, for any other entry
the host directory that `hostDirOf` resolved, which is the source of a mount.
Whenever this `x` has no `..` element the `HostDir` lies under the base
directory; the mounts and the native log path that the entry does not use
play no part. -/
theorem parseLogConfig_hostDir_under_base (p : Pilot) (fuel : Nat) (key jsonLogPath : Str)
    (mounts : GoMap MountPoint) (labels : GoMap Str) (cfg : LogConfig)
    (hbase : IsAbs p.base = true)
    (hret : parseLogConfig p fuel key jsonLogPath mounts labels = .val (.ok cfg)) :
    IsAbs cfg.HostDir = true ∧
    ∃ x, cfg.HostDir = Join [p.base, x] ∧
      ((labels.get key = "stdout".toList ∧ x = Dir jsonLogPath) ∨
       (labels.get key ≠ "stdout".toList ∧
         hostDirOf fuel (Dir (labels.get key)) mounts = .val x ∧
         ∃ d point, mounts.get? d = some point ∧ point.Source = x)) ∧
      (¬ hasDotDot x → pathUnder p.base cfg.HostDir) := by
  rcases parseLogConfig_hostDir p fuel key jsonLogPath mounts labels cfg hret with
    ⟨hstd, h⟩ | ⟨hstd, hostDir, hh, hne, h⟩
  · rw [h]
    exact ⟨(Join_under_base _ _ hbase).1, Dir jsonLogPath, rfl, Or.inl ⟨hstd, rfl⟩,
      (Join_under_base _ _ hbase).2⟩
  · have hsrc : ∃ d point, mounts.get? d = some point ∧ point.Source = hostDir := by
      rcases hostDirOf_val _ _ _ _ hh with h0 | hp
      · exact absurd h0 hne
      · exact hp
    rw [h]
    exact ⟨(Join_under_base _ _ hbase).1, hostDir, rfl, Or.inr ⟨hstd, hh, hsrc⟩,
      (Join_under_base _ _ hbase).2⟩

/-- Claim C7, counterexample: with the absolute base `/host`, a mount whose
source is `/data/../../etc` gives the `HostDir` `/etc`, and the relative
native log path `../x/abc-json.log` gives, in the stdout branch, the `HostDir`
`/x`; neither lies under `/host`. -/
theorem parseLogConfig_hostDir_escapes_base :
    IsAbs "/host".toList = true ∧
    parseLogConfig ⟨"/host".toList, false⟩ 1 "aliyun.logs.app".toList
        "/var/lib/x/abc-json.log".toList
        [("/var/log/app".toList, ⟨"/data/../../etc".toList, "/var/log/app".toList⟩)]
        [("aliyun.logs.app".toList, "/var/log/app/app.log".toList)]
      = .val (.ok
          { Name := "app".toList
            HostDir := "/etc".toList
            ContainerDir := "/var/log/app".toList
            Format := "none".toList
            File := "app.log".toList
            Tags := [] }) ∧
    ¬ pathUnder "/host".toList "/etc".toList ∧
    parseLogConfig ⟨"/host".toList, false⟩ 0 "aliyun.logs.out".toList
        "../x/abc-json.log".toList [] [("aliyun.logs.out".toList, "stdout".toList)]
      = .val (.ok
          { Name := "out".toList
            HostDir := "/x".toList
            ContainerDir := []
            Format := "json".toList
            File := "abc-json.log".toList
            Tags := [] }) ∧
    ¬ pathUnder "/host".toList "/x".toList :=
  ⟨by decide, rfl, by decide, rfl, by decide⟩

/-- Two entries whose unused input has a `..` element. A `stdout` entry with
the native log path `/var/lib/x/abc-json.log` and an unrelated mount of source
`/data/../x` has the `HostDir` `/host/var/lib/x`; a mounted entry with the
source `/data/logs/app` and the unused native log path `../x/abc-json.log` has
the `HostDir` `/host/data/logs/app`. Both are absolute and under `/host`. -/
theorem parseLogConfig_hostDir_under_base_witness :
    (IsAbs "/host/var/lib/x".toList = true ∧
      ∃ x, "/host/var/lib/x".toList = Join ["/host".toList, x] ∧
        pathUnder "/host".toList "/host/var/lib/x".toList) ∧
    (IsAbs "/host/data/logs/app".toList = true ∧
      ∃ x, "/host/data/logs/app".toList = Join ["/host".toList, x] ∧
        pathUnder "/host".toList "/host/data/logs/app".toList) := by
  constructor
  · obtain ⟨h1, x, h2, h3, h4⟩ := parseLogConfig_hostDir_under_base ⟨"/host".toList, false⟩ 0
      "aliyun.logs.out".toList "/var/lib/x/abc-json.log".toList
      [("/other".toList, ⟨"/data/../x".toList, "/other".toList⟩)]
      [("aliyun.logs.out".toList, "stdout".toList)]
      { Name := "out".toList
        HostDir := "/host/var/lib/x".toList
        ContainerDir := []
        Format := "json".toList
        File := "abc-json.log".toList
        Tags := [] }
      (by decide) rfl
    refine ⟨h1, x, h2, h4 ?_⟩
    rcases h3 with ⟨_, hx⟩ | ⟨hne, _⟩
    · rw [hx]
      decide
    · exact absurd (by decide) hne
  · obtain ⟨h1, x, h2, h3, h4⟩ := parseLogConfig_hostDir_under_base ⟨"/host".toList, false⟩ 1
      "aliyun.logs.access".toList "../x/abc-json.log".toList
      [("/var/log/app".toList, ⟨"/data/logs/app".toList, "/var/log/app".toList⟩)]
      [("aliyun.logs.access".toList, "/var/log/app/access.log".toList)]
      { Name := "access".toList
        ContainerDir := "/var/log/app".toList
        File := "access.log".toList
        Format := "none".toList
        Tags := []
        HostDir := "/host/data/logs/app".toList }
      (by decide) rfl
    refine ⟨h1, x, h2, h4 ?_⟩
    rcases h3 with ⟨heq, _⟩ | ⟨_, hh, _⟩
    · exact absurd heq (by decide)
    · have hv : hostDirOf 1 (Dir (GoMap.get
          [("aliyun.logs.access".toList, "/var/log/app/access.log".toList)]
          "aliyun.logs.access".toList))
          [("/var/log/app".toList, ⟨"/data/logs/app".toList, "/var/log/app".toList⟩)]
          = .val "/data/logs/app".toList := rfl
      rw [hv] at hh
      cases hh
      decide

/-! ## Full rescan -/

/-- The loop over a list of containers runs the first part and, when that part
has finished without an error, goes on with the rest from the state reached;
any other outcome of the first part is the outcome of the whole. -/
theorem processAllContainersLoop_append (env : Env) (p : Pilot) (fuel : Nat)
    (pre rest : List Str) (w : List Event) :
    processAllContainersLoop env p fuel (pre ++ rest) w =
      match processAllContainersLoop env p fuel pre w with
      | .val (w1, none) => processAllContainersLoop env p fuel rest w1
      | other => other := by
  induction pre generalizing w with
  | nil => simp [processAllContainersLoop]
  | cons c cs ih =>
    simp only [List.cons_append, processAllContainersLoop]
    cases h1 : env.ContainerInspect c with
    | error err => simp
    | ok cj =>
      simp only
      cases h2 : newContainer env p fuel cj (w ++ [.inspect c]) with
      | outOfFuel => simp
      | panic => simp
      | val r =>
        obtain ⟨w1, oe⟩ := r
        cases oe with
        | none => simp [ih]
        | some e => simp

/-- Claim C9, counterexample: `c1` and `c2` are listed and the inspect of `c1`
fails. The rescan returns the error of `c1` after that one call: `c2`, which
on its own gets its configuration file written, is never inspected. -/
theorem processAllContainers_inspect_failure_aborts :
    (∀ fuel, processAllContainers exampleEnv ⟨"/host".toList, false⟩ fuel []
      = .val ([.inspect "c1".toList], some (.external "no such container".toList))) ∧
    (∀ fuel, processAllContainersLoop exampleEnv ⟨"/host".toList, false⟩ fuel ["c2".toList] []
      = .val ([.inspect "c2".toList, .write (pathOf "c2".toList) "conf".toList], none)) :=
  ⟨fun _ => rfl, fun _ => rfl⟩

/-- Claim C9, amended: during the full rescan a failure while processing one
container, be it that its inspect fails or that `newContainer` returns an
error, aborts the rescan. When the listing and the wipe of the configuration
directory succeed and the containers before `c` are processed without error,
`processAllContainers` returns the error of `c` with the calls made up to that
failure, whatever containers `post` follow in the list: they are not
processed. -/
theorem processAllContainers_aborts_on_failure (env : Env) (p : Pilot) (fuel : Nat)
    (pre : List Str) (c : Str) (post : List Str) (w w0 w1 w2 : List Event) (e : Err)
    (hlist : env.ContainerList = .ok (pre ++ c :: post))
    (hclean : cleanConfigs env w = (w0, none))
    (hpre : processAllContainersLoop env p fuel pre w0 = .val (w1, none))
    (hfail : (env.ContainerInspect c = .error e ∧ w2 = w1 ++ [.inspect c]) ∨
      (∃ containerJSON, env.ContainerInspect c = .ok containerJSON ∧
        newContainer env p fuel containerJSON (w1 ++ [.inspect c]) = .val (w2, some e))) :
    processAllContainers env p fuel w = .val (w2, some e) := by
  simp only [processAllContainers, hlist, hclean, processAllContainersLoop_append, hpre]
  rcases hfail with ⟨h1, h2⟩ | ⟨cj, h1, h2⟩
  · simp [processAllContainersLoop, h1, h2]
  · simp [processAllContainersLoop, h1, h2]

/-- The rescan example: the failing container is the first one listed. -/
theorem processAllContainers_aborts_on_failure_witness :
    processAllContainers exampleEnv ⟨"/host".toList, false⟩ 0 []
      = .val ([.inspect "c1".toList], some (.external "no such container".toList)) :=
  processAllContainers_aborts_on_failure exampleEnv ⟨"/host".toList, false⟩ 0
    [] "c1".toList ["c2".toList] [] [] [] [.inspect "c1".toList]
    (.external "no such container".toList) rfl rfl rfl (Or.inl ⟨rfl, rfl⟩)

/-! ## Reload -/

/-- Claim C10: a `Reload` call made while a process handle is held, after any
calls `w`, with `before` the trimmed output of `pgrep -P <pid>` taken before
the hang-up signal and `after` the one taken after the sleep of 5 seconds.
`Reload` returns no error. When `before` and `after` are identical the calls
made are the query, the signal, the sleep, the query and then
`kill -9 <before>`; when they differ the calls are the first four only, so no
kill is issued. -/
theorem Reload_kill_iff_unchanged (cmd : Cmd) (out : List SupEvent → Str → Str)
    (w : List SupEvent) (before after : Str)
    (hbefore : before = TrimSpace (out w ("pgrep -P ".toList ++ formatInt cmd.Pid)))
    (hafter : after = TrimSpace (out
      (w ++ [.shell ("pgrep -P ".toList ++ formatInt cmd.Pid), .sighup cmd.Pid, .sleep 5])
      ("pgrep -P ".toList ++ formatInt cmd.Pid))) :
    (Reload (some cmd) out w).2 = none ∧
    (before = after → (Reload (some cmd) out w).1 =
      w ++ [.shell ("pgrep -P ".toList ++ formatInt cmd.Pid), .sighup cmd.Pid, .sleep 5,
        .shell ("pgrep -P ".toList ++ formatInt cmd.Pid),
        .shell ("kill -9 ".toList ++ before)]) ∧
    (before ≠ after → (Reload (some cmd) out w).1 =
      w ++ [.shell ("pgrep -P ".toList ++ formatInt cmd.Pid), .sighup cmd.Pid, .sleep 5,
        .shell ("pgrep -P ".toList ++ formatInt cmd.Pid)]) := by
  subst hbefore hafter
  unfold Reload shell
  dsimp only
  refine ⟨?_, ?_, ?_⟩
  · split <;> rfl
  · intro h
    split
    · simp
    · rename_i hn
      simp only [List.append_assoc, List.cons_append, List.nil_append] at hn h
      exact absurd h hn
  · intro h
    split
    · rename_i hp
      simp only [List.append_assoc, List.cons_append, List.nil_append] at hp h
      exact absurd hp h
    · simp

/-- Process 42 with child 77: the child is killed when the second query still
answers 77, and is not when it answers 78. -/
theorem Reload_kill_iff_unchanged_witness :
    (Reload (some ⟨42⟩) (fun _ _ => "77\n".toList) []).1 =
      [.shell "pgrep -P 42".toList, .sighup 42, .sleep 5, .shell "pgrep -P 42".toList,
        .shell "kill -9 77".toList] ∧
    (Reload (some ⟨42⟩) (fun w _ => if w = [] then "77\n".toList else "78\n".toList) []).1 =
      [.shell "pgrep -P 42".toList, .sighup 42, .sleep 5, .shell "pgrep -P 42".toList] :=
  ⟨(Reload_kill_iff_unchanged ⟨42⟩ (fun _ _ => "77\n".toList) [] "77".toList "77".toList
      (by decide) (by decide)).2.1 rfl,
   (Reload_kill_iff_unchanged ⟨42⟩ (fun w _ => if w = [] then "77\n".toList else "78\n".toList)
      [] "77".toList "78".toList (by decide) (by decide)).2.2 (by decide)⟩

end LogPilot
